import Mathlib

/-!
Verification of the ImageCropper background pipeline against its
natural-language specification.

The Rust sources are shallowly embedded: file names are lists of
characters (wrapped in `String` where convenient), machine integers
are `Nat`, the mutable controller state is passed explicitly, and the
worker channels are modelled by the lists of messages they deliver.
Every definition follows the corresponding function of the source
tree (`src/fs_utils.rs`, `src/image_utils.rs`, `src/app/loader.rs`,
`src/app/saver.rs`, `src/app/mod.rs`).
-/

namespace ImageCropper

/-! ## fs_utils: split_name (src/fs_utils.rs lines 106-113)

`split_name` converts the `OsStr` to a string and applies
`rsplit_once('.')`: the name is split at its last dot.  We model the
string as its list of characters. -/

/-- The character is not the dot separator. -/
def notDot (c : Char) : Bool := c ≠ '.'

/-- Model of `split_name` on a list of characters: split at the last
dot, returning `(stem, some ext)`, or `(name, none)` when the name
has no dot.  Mirrors `name.rsplit_once('.')`. -/
def splitNameL (name : List Char) : List Char × Option (List Char) :=
  let extRev := name.reverse.takeWhile notDot
  let rest := name.reverse.dropWhile notDot
  match rest with
  | [] => (name, none)
  | _ :: stemRev => (stemRev.reverse, some extRev.reverse)

/-- `split_name` on Lean strings (the source works on UTF-8 strings
obtained from `to_string_lossy`). -/
def splitName (name : String) : String × Option String :=
  let p := splitNameL name.data
  (⟨p.1⟩, p.2.map (fun l => ⟨l⟩))

theorem takeWhile_append_of_all (p : Char → Bool) (l₁ l₂ : List Char)
    (h : ∀ c ∈ l₁, p c = true) :
    (l₁ ++ l₂).takeWhile p = l₁ ++ l₂.takeWhile p := by
  induction l₁ with
  | nil => simp
  | cons a t ih =>
      have ha : p a = true := h a (by simp)
      simp [List.takeWhile_cons, ha]
      exact ih (fun c hc => h c (by simp [hc]))

theorem dropWhile_append_of_all (p : Char → Bool) (l₁ l₂ : List Char)
    (h : ∀ c ∈ l₁, p c = true) :
    (l₁ ++ l₂).dropWhile p = l₂.dropWhile p := by
  induction l₁ with
  | nil => simp
  | cons a t ih =>
      have ha : p a = true := h a (by simp)
      simp [List.dropWhile_cons, ha]
      exact ih (fun c hc => h c (by simp [hc]))

theorem notDot_eq_true {c : Char} (h : c ≠ '.') : notDot c = true := by
  simp [notDot, h]

theorem notDot_dot : notDot '.' = false := by
  simp [notDot]

theorem splitNameL_no_dot (name : List Char) (h : '.' ∉ name) :
    splitNameL name = (name, none) := by
  have hall : ∀ c ∈ name.reverse, notDot c = true := by
    intro c hc
    simp only [List.mem_reverse] at hc
    exact notDot_eq_true (fun hEq => h (hEq ▸ hc))
  have hdrop : name.reverse.dropWhile notDot = [] := by
    have := dropWhile_append_of_all notDot name.reverse [] hall
    simpa using this
  simp [splitNameL, hdrop]

theorem splitNameL_last_dot (stem ext : List Char) (h : '.' ∉ ext) :
    splitNameL (stem ++ '.' :: ext) = (stem, some ext) := by
  have hrev : (stem ++ '.' :: ext).reverse = ext.reverse ++ '.' :: stem.reverse := by
    simp
  have hall : ∀ c ∈ ext.reverse, notDot c = true := by
    intro c hc
    simp only [List.mem_reverse] at hc
    exact notDot_eq_true (fun hEq => h (hEq ▸ hc))
  have htake : (ext.reverse ++ '.' :: stem.reverse).takeWhile notDot
      = ext.reverse := by
    rw [takeWhile_append_of_all _ _ _ hall]
    simp [List.takeWhile_cons, notDot_dot]
  have hdrop : (ext.reverse ++ '.' :: stem.reverse).dropWhile notDot
      = '.' :: stem.reverse := by
    rw [dropWhile_append_of_all _ _ _ hall]
    simp [List.dropWhile_cons, notDot_dot]
  simp [splitNameL, hrev, htake, hdrop]

/-! ## fs_utils: unique_destination (src/fs_utils.rs lines 86-104)

`unique_destination(dir, file_name)` returns `dir/file_name` when
that path does not exist, otherwise tries `stem-1.ext`, `stem-2.ext`,
... until a free name is found.  We model the directory contents as
the list of file names that currently exist in `dir`; the suffix
index is rendered in decimal exactly as Rust's `format!` does. -/

/-- Decimal digit character, as produced by `format!` for one digit. -/
def digitChar (n : Nat) : Char :=
  match n with
  | 0 => '0' | 1 => '1' | 2 => '2' | 3 => '3' | 4 => '4'
  | 5 => '5' | 6 => '6' | 7 => '7' | 8 => '8' | _ => '9'

/-- Little-endian decimal digits of `n`, with explicit fuel so the
definition is structural (the fuel is always sufficient below). -/
def digitsRev : Nat → Nat → List Char
  | 0, _ => []
  | fuel + 1, n =>
      if n < 10 then [digitChar n]
      else digitChar (n % 10) :: digitsRev fuel (n / 10)

/-- Decimal rendering of a natural number (model of `format!("{n}")`). -/
def natRepr (n : Nat) : List Char := (digitsRev (n + 1) n).reverse

/-- Numeric value of a digit character (inverse of `digitChar`). -/
def digitVal (c : Char) : Nat :=
  if c = '0' then 0 else if c = '1' then 1 else if c = '2' then 2
  else if c = '3' then 3 else if c = '4' then 4 else if c = '5' then 5
  else if c = '6' then 6 else if c = '7' then 7 else if c = '8' then 8
  else 9

/-- Value of a little-endian digit list. -/
def valRev : List Char → Nat
  | [] => 0
  | c :: cs => digitVal c + 10 * valRev cs

theorem digitVal_digitChar : ∀ n < 10, digitVal (digitChar n) = n := by decide

theorem valRev_digitsRev : ∀ fuel n, n < fuel → valRev (digitsRev fuel n) = n := by
  intro fuel
  induction fuel with
  | zero => intro n h; omega
  | succ f ih =>
      intro n h
      by_cases h10 : n < 10
      · simp [digitsRev, h10, valRev, digitVal_digitChar n h10]
      · have hdiv : n / 10 < n := Nat.div_lt_self (by omega) (by omega)
        have hf : n / 10 < f := by omega
        have hmod : n % 10 < 10 := Nat.mod_lt _ (by omega)
        simp only [digitsRev, if_neg h10, valRev]
        rw [digitVal_digitChar _ hmod, ih _ hf]
        omega

theorem natRepr_injective : Function.Injective natRepr := by
  intro a b h
  have h2 : digitsRev (a + 1) a = digitsRev (b + 1) b :=
    List.reverse_injective h
  have ha := valRev_digitsRev (a + 1) a (Nat.lt_succ_self a)
  have hb := valRev_digitsRev (b + 1) b (Nat.lt_succ_self b)
  rw [← ha, ← hb, h2]

/-- Candidate name `stem-idx.ext` (or `stem-idx` without extension),
as built by `format!("{stem}-{idx}.{ext}")`. -/
def mkCandidate (stem : List Char) (ext : Option (List Char)) (idx : Nat) : List Char :=
  match ext with
  | some e => stem ++ '-' :: (natRepr idx ++ '.' :: e)
  | none => stem ++ '-' :: natRepr idx

theorem mkCandidate_injective (stem : List Char) (ext : Option (List Char)) :
    Function.Injective (mkCandidate stem ext) := by
  intro a b h
  cases ext with
  | none =>
      simp only [mkCandidate] at h
      have h1 := List.append_cancel_left h
      exact natRepr_injective (by injection h1)
  | some e =>
      simp only [mkCandidate] at h
      have h1 := List.append_cancel_left h
      have h2 : natRepr a ++ '.' :: e = natRepr b ++ '.' :: e := by injection h1
      have h3 : (natRepr a).reverse = (natRepr b).reverse := by
        have := congrArg List.reverse h2
        simp only [List.reverse_append] at this
        exact List.append_cancel_left this
      exact natRepr_injective (List.reverse_injective h3)

/-- The search loop `for idx in 1.. { ... }` of `unique_destination`,
with fuel (the caller passes enough fuel for the loop to reach a free
name, as shown by `searchFrom_spec` and `exists_free_candidate`). -/
def searchFrom (occupied : List (List Char)) (cand : Nat → List Char) :
    Nat → Nat → List Char
  | 0, idx => cand idx
  | fuel + 1, idx =>
      if cand idx ∈ occupied then searchFrom occupied cand fuel (idx + 1)
      else cand idx

/-- Model of `unique_destination`: `occupied` is the set of file
names already existing in the target directory. -/
def uniqueDestination (occupied : List (List Char)) (fileName : List Char) :
    List Char :=
  if fileName ∈ occupied then
    let p := splitNameL fileName
    searchFrom occupied (mkCandidate p.1 p.2) (occupied.length + 1) 1
  else fileName

/-- String-level wrapper of `uniqueDestination`. -/
def uniqueDestinationS (occupied : List String) (fileName : String) : String :=
  ⟨uniqueDestination (occupied.map String.data) fileName.data⟩

theorem searchFrom_spec (occupied : List (List Char)) (cand : Nat → List Char) :
    ∀ fuel idx, (∃ j, j < fuel ∧ cand (idx + j) ∉ occupied) →
      ∃ j, j < fuel ∧ searchFrom occupied cand fuel idx = cand (idx + j) ∧
        cand (idx + j) ∉ occupied ∧ ∀ k < j, cand (idx + k) ∈ occupied := by
  intro fuel
  induction fuel with
  | zero => intro idx h; obtain ⟨j, hj, _⟩ := h; omega
  | succ f ih =>
      intro idx h
      by_cases hmem : cand idx ∈ occupied
      · obtain ⟨j, hj, hfree⟩ := h
        have hj0 : j ≠ 0 := by
          intro h0; rw [h0] at hfree; simp at hfree; exact hfree hmem
        obtain ⟨j', rfl⟩ := Nat.exists_eq_succ_of_ne_zero hj0
        have hstep : ∃ j, j < f ∧ cand (idx + 1 + j) ∉ occupied := by
          refine ⟨j', by omega, ?_⟩
          have : idx + 1 + j' = idx + (j' + 1) := by omega
          rw [this]; exact hfree
        obtain ⟨j₀, hj₀, heq, hfree₀, hmin₀⟩ := ih (idx + 1) hstep
        refine ⟨j₀ + 1, by omega, ?_, ?_, ?_⟩
        · simp only [searchFrom, if_pos hmem]
          rw [heq]; congr 1; omega
        · have : idx + (j₀ + 1) = idx + 1 + j₀ := by omega
          rw [this]; exact hfree₀
        · intro k hk
          cases k with
          | zero => simpa using hmem
          | succ k' =>
              have : idx + (k' + 1) = idx + 1 + k' := by omega
              rw [this]; exact hmin₀ k' (by omega)
      · refine ⟨0, by omega, ?_, by simpa using hmem, by omega⟩
        simp [searchFrom, hmem]

theorem exists_free_candidate (occupied : List (List Char))
    (cand : Nat → List Char) (hinj : Function.Injective cand) :
    ∃ j, j < occupied.length + 1 ∧ cand (1 + j) ∉ occupied := by
  by_contra hc
  push_neg at hc
  have hsub : Finset.image (fun j => cand (1 + j)) (Finset.range (occupied.length + 1))
      ⊆ occupied.toFinset := by
    intro x hx
    simp only [Finset.mem_image, Finset.mem_range] at hx
    obtain ⟨j, hj, rfl⟩ := hx
    simpa [List.mem_toFinset] using hc j hj
  have hinj2 : Function.Injective (fun j : Nat => cand (1 + j)) := by
    intro a b hab
    have := hinj hab
    omega
  have hcard := Finset.card_le_card hsub
  rw [Finset.card_image_of_injective _ hinj2, Finset.card_range] at hcard
  have := List.toFinset_card_le occupied
  omega

theorem uniqueDestination_not_mem (occupied : List (List Char))
    (fileName : List Char) :
    uniqueDestination occupied fileName ∉ occupied := by
  by_cases h : fileName ∈ occupied
  · obtain ⟨j, hj, hfree⟩ :=
      exists_free_candidate occupied
        (mkCandidate (splitNameL fileName).1 (splitNameL fileName).2)
        (mkCandidate_injective _ _)
    obtain ⟨j₀, _, heq, hfree₀, _⟩ :=
      searchFrom_spec occupied
        (mkCandidate (splitNameL fileName).1 (splitNameL fileName).2)
        (occupied.length + 1) 1 ⟨j, hj, hfree⟩
    simpa [uniqueDestination, h, heq] using hfree₀
  · simp [uniqueDestination, h]

theorem uniqueDestination_first_free (occupied : List (List Char))
    (fileName : List Char) (h : fileName ∈ occupied) :
    ∃ n, 1 ≤ n ∧
      uniqueDestination occupied fileName
        = mkCandidate (splitNameL fileName).1 (splitNameL fileName).2 n ∧
      mkCandidate (splitNameL fileName).1 (splitNameL fileName).2 n ∉ occupied ∧
      ∀ m, 1 ≤ m → m < n →
        mkCandidate (splitNameL fileName).1 (splitNameL fileName).2 m ∈ occupied := by
  obtain ⟨j, hj, hfree⟩ :=
    exists_free_candidate occupied
      (mkCandidate (splitNameL fileName).1 (splitNameL fileName).2)
      (mkCandidate_injective _ _)
  obtain ⟨j₀, _, heq, hfree₀, hmin₀⟩ :=
    searchFrom_spec occupied
      (mkCandidate (splitNameL fileName).1 (splitNameL fileName).2)
      (occupied.length + 1) 1 ⟨j, hj, hfree⟩
  refine ⟨1 + j₀, by omega, ?_, hfree₀, ?_⟩
  · simpa [uniqueDestination, h] using heq
  · intro m hm1 hmlt
    have := hmin₀ (m - 1) (by omega)
    have hidx : 1 + (m - 1) = m := by omega
    rwa [hidx] at this

/-- C8: `unique_destination` never returns an existing path: it
returns the candidate file name itself when free, otherwise the
first `stem-N.ext` with `N ≥ 1` that is free; in a directory holding
`image.png` and `image-1.png`, candidate `image.png` yields
`image-2.png`. -/
theorem c8_uniqueDestination_spec :
    (∀ (occupied : List (List Char)) (fileName : List Char),
       uniqueDestination occupied fileName ∉ occupied)
    ∧ (∀ (occupied : List (List Char)) (fileName : List Char),
         fileName ∉ occupied → uniqueDestination occupied fileName = fileName)
    ∧ (∀ (occupied : List (List Char)) (fileName : List Char),
         fileName ∈ occupied →
         ∃ n, 1 ≤ n ∧
           uniqueDestination occupied fileName
             = mkCandidate (splitNameL fileName).1 (splitNameL fileName).2 n ∧
           mkCandidate (splitNameL fileName).1 (splitNameL fileName).2 n ∉ occupied ∧
           ∀ m, 1 ≤ m → m < n →
             mkCandidate (splitNameL fileName).1 (splitNameL fileName).2 m ∈ occupied)
    ∧ uniqueDestinationS ["image.png", "image-1.png"] "image.png" = "image-2.png" := by
  refine ⟨uniqueDestination_not_mem, ?_, uniqueDestination_first_free, by decide⟩
  intro occupied fileName h
  simp [uniqueDestination, h]

/-- Witness for C8: the implications of the specification hold at a
concrete directory. -/
theorem c8_uniqueDestination_spec_witness :
    uniqueDestination ["b.png".data] "a.png".data = "a.png".data ∧
    ∃ n, 1 ≤ n ∧
      uniqueDestination ["b.png".data] "b.png".data
        = mkCandidate (splitNameL "b.png".data).1 (splitNameL "b.png".data).2 n ∧
      mkCandidate (splitNameL "b.png".data).1 (splitNameL "b.png".data).2 n
        ∉ ["b.png".data] ∧
      ∀ m, 1 ≤ m → m < n →
        mkCandidate (splitNameL "b.png".data).1 (splitNameL "b.png".data).2 m
          ∈ ["b.png".data] :=
  ⟨c8_uniqueDestination_spec.2.1 ["b.png".data] "a.png".data (by decide),
   c8_uniqueDestination_spec.2.2.1 ["b.png".data] "b.png".data (by decide)⟩

/-- C9: `split_name` splits a file name at its last dot: a name with
a dot yields the text before the last dot as stem and the text after
it as `some` extension; a name with no dot yields the whole name and
`none`; `archive.tar.gz` gives `("archive.tar", some "gz")` and
`.bashrc` gives `("", some "bashrc")`. -/
theorem c9_splitName_spec :
    (∀ stem ext : List Char, '.' ∉ ext →
       splitNameL (stem ++ '.' :: ext) = (stem, some ext))
    ∧ (∀ name : List Char, '.' ∉ name → splitNameL name = (name, none))
    ∧ splitName "archive.tar.gz" = ("archive.tar", some "gz")
    ∧ splitName ".bashrc" = ("", some "bashrc")
    ∧ splitName "archive" = ("archive", none) := by
  refine ⟨splitNameL_last_dot, splitNameL_no_dot, by decide, by decide, by decide⟩

/-- Witness for C9: the splitting laws applied to concrete names. -/
theorem c9_splitName_spec_witness :
    splitNameL ("photo".data ++ '.' :: "avif".data)
      = ("photo".data, some "avif".data) ∧
    splitNameL "README".data = ("README".data, none) :=
  ⟨c9_splitName_spec.1 "photo".data "avif".data (by decide),
   c9_splitName_spec.2.1 "README".data (by decide)⟩

/-! ## Loader: records, history and cache (src/app/loader.rs)

A `PreloadedImage` is modelled by its path and an abstract identifier
for the decoded pixel data (the pixel contents play no role in the
claims about the containers).  The history is the `VecDeque` of
`push_history`/`pop_history` (lines 269-278), the cache is the
`HashMap` consumed by `get_from_cache` (lines 265-267). -/

/-- Model of `PreloadedImage`: the path plus an abstract identifier
standing for the decoded image and display buffer. -/
structure Rec where
  path : String
  img : Nat
deriving DecidableEq, Repr

/-- `push_history` (loader.rs lines 269-274): if the deque already
holds 10 entries, pop the front (oldest), then push at the back. -/
def pushHistory (h : List Rec) (x : Rec) : List Rec :=
  (if 10 ≤ h.length then h.drop 1 else h) ++ [x]

/-- `pop_history` (loader.rs lines 276-278): pop from the back. -/
def popHistory (h : List Rec) : Option Rec × List Rec :=
  (h.getLast?, h.dropLast)

/-- A history operation: the two mutators exposed by the Loader. -/
inductive HistOp where
  | push (x : Rec)
  | pop
deriving DecidableEq, Repr

/-- Apply one history operation. -/
def applyHistOp (h : List Rec) : HistOp → List Rec
  | .push x => pushHistory h x
  | .pop => (popHistory h).2

/-- Run a sequence of history operations from a starting history. -/
def applyHistOps (h : List Rec) (ops : List HistOp) : List Rec :=
  ops.foldl applyHistOp h

theorem applyHistOp_length_le (h : List Rec) (op : HistOp)
    (hle : h.length ≤ 10) : (applyHistOp h op).length ≤ 10 := by
  cases op with
  | push x =>
      simp only [applyHistOp, pushHistory]
      by_cases h10 : 10 ≤ h.length
      · simp [h10]; omega
      · simp [h10]; omega
  | pop =>
      simp only [applyHistOp, popHistory]
      have := List.length_dropLast h
      omega

theorem applyHistOps_length_le (h : List Rec) (ops : List HistOp)
    (hle : h.length ≤ 10) : (applyHistOps h ops).length ≤ 10 := by
  induction ops generalizing h with
  | nil => simpa [applyHistOps]
  | cons op t ih =>
      simp only [applyHistOps, List.foldl_cons]
      exact ih _ (applyHistOp_length_le h op hle)

/-- The result of pushing records `p1 ... p12` into an empty history. -/
def historyAfter12 : List Rec :=
  (List.range 12).foldl (fun h i => pushHistory h ⟨"p", i + 1⟩) []

/-- C4: the History ring never exceeds 10 records under any sequence
of push/pop operations, and pushing 12 distinct records into an
empty History leaves 10 records with the 3rd pushed at the front and
the 12th pushed at the back. -/
theorem c4_history_spec :
    (∀ ops : List HistOp, (applyHistOps [] ops).length ≤ 10)
    ∧ historyAfter12.length = 10
    ∧ historyAfter12.head? = some ⟨"p", 3⟩
    ∧ historyAfter12.getLast? = some ⟨"p", 12⟩ := by
  refine ⟨fun ops => applyHistOps_length_le [] ops (by simp), by decide, by decide, by decide⟩

/-! ### Cache: get_from_cache -/

/-- Lookup in the path-keyed cache (model of `HashMap` lookup). -/
def cacheLookup : List (String × Rec) → String → Option Rec
  | [], _ => none
  | e :: t, p => if e.1 = p then some e.2 else cacheLookup t p

/-- Removal from the path-keyed cache (model of `HashMap::remove`:
drops the entry for the key when present, otherwise leaves the map
unchanged). -/
def cacheRemove : List (String × Rec) → String → List (String × Rec)
  | [], _ => []
  | e :: t, p => if e.1 = p then t else e :: cacheRemove t p

/-- `get_from_cache` (loader.rs lines 265-267): `self.cache.remove(path)`
removes and returns the record for the path. -/
def getFromCache (c : List (String × Rec)) (p : String) :
    Option Rec × List (String × Rec) :=
  (cacheLookup c p, cacheRemove c p)

theorem cacheLookup_of_not_mem (c : List (String × Rec)) (p : String)
    (h : p ∉ c.map Prod.fst) : cacheLookup c p = none := by
  induction c with
  | nil => rfl
  | cons e t ih =>
      simp only [List.map_cons, List.mem_cons] at h
      push_neg at h
      have hne : ¬ e.1 = p := fun hh => h.1 hh.symm
      simp only [cacheLookup, if_neg hne]
      exact ih h.2

theorem cacheLookup_cacheRemove_self (c : List (String × Rec)) (p : String)
    (hnd : (c.map Prod.fst).Nodup) :
    cacheLookup (cacheRemove c p) p = none := by
  induction c with
  | nil => rfl
  | cons e t ih =>
      simp only [List.map_cons, List.nodup_cons] at hnd
      by_cases he : e.1 = p
      · simp only [cacheRemove, if_pos he]
        exact cacheLookup_of_not_mem t p (he ▸ hnd.1)
      · simp only [cacheRemove, if_neg he, cacheLookup, if_neg he]
        exact ih hnd.2

theorem cacheLookup_cacheRemove_other (c : List (String × Rec)) (p q : String)
    (hq : q ≠ p) : cacheLookup (cacheRemove c p) q = cacheLookup c q := by
  induction c with
  | nil => rfl
  | cons e t ih =>
      by_cases he : e.1 = p
      · simp only [cacheRemove, if_pos he, cacheLookup]
        rw [if_neg (by rw [he]; exact fun h => hq h.symm)]
      · simp only [cacheRemove, if_neg he, cacheLookup]
        by_cases heq : e.1 = q
        · simp [heq]
        · simp only [if_neg heq]
          exact ih

theorem cacheRemove_of_lookup_none (c : List (String × Rec)) (p : String)
    (h : cacheLookup c p = none) : cacheRemove c p = c := by
  induction c with
  | nil => rfl
  | cons e t ih =>
      by_cases he : e.1 = p
      · simp [cacheLookup, he] at h
      · simp only [cacheLookup, if_neg he] at h
        simp only [cacheRemove, if_neg he]
        rw [ih h]

/-- C6: `take(path)` removes and returns the cached record for the
path if present (else `none`); a second take of the same path then
returns `none`, and no other cache entry is affected. -/
theorem c6_getFromCache_spec (c : List (String × Rec)) (p : String)
    (hnd : (c.map Prod.fst).Nodup) :
    ((getFromCache c p).1 = cacheLookup c p)
    ∧ (cacheLookup c p = none → getFromCache c p = (none, c))
    ∧ ((getFromCache ((getFromCache c p).2) p).1 = none)
    ∧ (∀ q, q ≠ p → cacheLookup ((getFromCache c p).2) q = cacheLookup c q) := by
  refine ⟨rfl, ?_, ?_, ?_⟩
  · intro h
    simp only [getFromCache, h, cacheRemove_of_lookup_none c p h]
  · exact cacheLookup_cacheRemove_self c p hnd
  · intro q hq
    exact cacheLookup_cacheRemove_other c p q hq

/-- Witness for C6: the take specification at a concrete cache. -/
theorem c6_getFromCache_spec_witness :
    ((getFromCache [("a", ⟨"a", 1⟩), ("b", ⟨"b", 2⟩)] "a").1
        = cacheLookup [("a", ⟨"a", 1⟩), ("b", ⟨"b", 2⟩)] "a")
    ∧ (cacheLookup [("a", ⟨"a", 1⟩), ("b", ⟨"b", 2⟩)] "a" = none →
        getFromCache [("a", ⟨"a", 1⟩), ("b", ⟨"b", 2⟩)] "a"
          = (none, [("a", ⟨"a", 1⟩), ("b", ⟨"b", 2⟩)]))
    ∧ ((getFromCache ((getFromCache [("a", ⟨"a", 1⟩), ("b", ⟨"b", 2⟩)] "a").2) "a").1
        = none)
    ∧ (∀ q, q ≠ "a" →
        cacheLookup ((getFromCache [("a", ⟨"a", 1⟩), ("b", ⟨"b", 2⟩)] "a").2) q
          = cacheLookup [("a", ⟨"a", 1⟩), ("b", ⟨"b", 2⟩)] q) :=
  c6_getFromCache_spec [("a", ⟨"a", 1⟩), ("b", ⟨"b", 2⟩)] "a" (by decide)

/-! ## Saver: publish step of the worker (src/app/saver.rs lines 105-186)

After a successful encode into the temp file, the worker runs
`copy_metadata`: it reads the backed-up original and the temp file,
extracts EXIF/ICC metadata, and

  * if either read fails, `copy_metadata` errors and the fallback
    renames the still-existing temp file into the destination;
  * if the original carries no metadata (or does not parse as
    JPEG/PNG/WebP), the temp file is renamed into the destination;
  * otherwise, for JPEG/PNG/WebP outputs whose temp file parses, the
    metadata-injected bytes are written DIRECTLY to the destination
    with `std::fs::write` and the temp file is removed; for AVIF (or
    an unparseable temp file) the temp file is renamed.

We record the sequence of destination-affecting filesystem events. -/

/-- Model of `OutputFormat` (src/image_utils.rs lines 8-14). -/
inductive OutputFormat where
  | jpg
  | png
  | webp
  | avif
deriving DecidableEq, Repr

/-- Filesystem events of the publish phase that touch the
destination or the temp file. -/
inductive FsEvent where
  | renameTempToDest
  | writeDest
  | removeTemp
deriving DecidableEq, Repr

/-- Environment of one publish: whether the two reads in
`copy_metadata` succeed, whether the backed-up original carries
EXIF/ICC metadata, and whether the encoded temp file parses in the
output container. -/
structure MetaEnv where
  readsOk : Bool
  metaPresent : Bool
  tempParseOk : Bool
deriving DecidableEq, Repr

/-- The destination/temp filesystem events issued by the publish
phase of a saver worker (saver.rs lines 112-186). -/
def publishEvents (fmt : OutputFormat) (env : MetaEnv) : List FsEvent :=
  if !env.readsOk then [.renameTempToDest]
  else if !env.metaPresent then [.renameTempToDest]
  else
    match fmt with
    | .avif => [.renameTempToDest]
    | _ =>
        if env.tempParseOk then [.writeDest, .removeTemp]
        else [.renameTempToDest]

/-- Whether an event makes the destination file come into existence. -/
def createsDest : FsEvent → Bool
  | .renameTempToDest => true
  | .writeDest => true
  | .removeTemp => false

/-- Counterexample to C1: when the original carries metadata that is
successfully injected (here: PNG output, all reads and parses
succeed), the destination comes into existence through a direct
`std::fs::write`, not through a rename of the temp file. -/
theorem c1_direct_write_counterexample :
    publishEvents .png ⟨true, true, true⟩ = [.writeDest, .removeTemp]
    ∧ FsEvent.writeDest ∈ publishEvents .png ⟨true, true, true⟩
    ∧ FsEvent.renameTempToDest ∉ publishEvents .png ⟨true, true, true⟩ := by
  decide

/-- C1 (amended): every publish creates the destination by exactly
one event; that event is the atomic rename of the temp file except
when both `copy_metadata` reads succeed, the original carries
EXIF/ICC metadata, the output format is not AVIF and the temp file
parses in the output container — in that case the destination is
created by a direct (non-atomic) write. -/
theorem c1_publish_spec :
    ∀ (fmt : OutputFormat) (env : MetaEnv),
      ((publishEvents fmt env).filter createsDest).length = 1
      ∧ (FsEvent.writeDest ∈ publishEvents fmt env ↔
          (env.readsOk = true ∧ env.metaPresent = true
            ∧ env.tempParseOk = true ∧ fmt ≠ .avif))
      ∧ (FsEvent.renameTempToDest ∈ publishEvents fmt env ↔
          ¬(env.readsOk = true ∧ env.metaPresent = true
              ∧ env.tempParseOk = true ∧ fmt ≠ .avif)) := by
  intro fmt env
  obtain ⟨r, m, t⟩ := env
  cases fmt <;> cases r <;> cases m <;> cases t <;> decide

/-! ## Saver: queue_save / check_completions (src/app/saver.rs lines 206-226)

`queue_save` first pushes the destination path onto `pending_saves`
and only then attempts `save_tx.send`, which fails exactly when the
worker channel is closed — on failure the path stays in the vector.
`check_completions` drains the status channel, removing the first
matching entry of `pending_saves` for each drained status. -/

/-- The Controller-visible saver state: the `pending_saves` vector
plus whether the request channel is still open. -/
structure SaverState where
  pendingSaves : List String
  channelOpen : Bool
deriving DecidableEq, Repr

/-- `queue_save` (saver.rs lines 206-211): push the path, then send;
the returned flag is the success of the send. -/
def queueSave (s : SaverState) (p : String) : SaverState × Bool :=
  ({ s with pendingSaves := s.pendingSaves ++ [p] }, s.channelOpen)

/-- Removal of the first matching entry
(`position` + `Vec::remove`, saver.rs lines 216-218). -/
def removeFirst : List String → String → List String
  | [], _ => []
  | x :: t, p => if x = p then t else x :: removeFirst t p

/-- `check_completions` (saver.rs lines 213-226) restricted to the
pending set: each drained status removes its path. -/
def checkCompletions (s : SaverState) (arrived : List String) : SaverState :=
  { s with pendingSaves := arrived.foldl removeFirst s.pendingSaves }

/-- One observable saver event: a successful enqueue, or the drain of
one completion status. -/
inductive SaverEv where
  | queue (p : String)
  | complete (p : String)
deriving DecidableEq, Repr

/-- Apply one event to the saver state. -/
def stepSaver (s : SaverState) : SaverEv → SaverState
  | .queue p => (queueSave s p).1
  | .complete p => checkCompletions s [p]

/-- Run a trace of events from the freshly constructed saver. -/
def runSaver (evs : List SaverEv) : SaverState :=
  evs.foldl stepSaver ⟨[], true⟩

/-- Destination paths queued in a trace. -/
def queuedPaths (evs : List SaverEv) : List String :=
  evs.filterMap fun e => match e with | .queue p => some p | .complete _ => none

/-- Destination paths whose status was drained in a trace. -/
def completedPaths (evs : List SaverEv) : List String :=
  evs.filterMap fun e => match e with | .queue _ => none | .complete p => some p

/-- Well-formed trace: each destination is queued at most once, each
status arrives at most once, and a status only arrives for a request
queued earlier in the trace. -/
def WfTrace (evs : List SaverEv) : Prop :=
  (queuedPaths evs).Nodup ∧ (completedPaths evs).Nodup ∧
  ∀ n ∈ List.range (evs.length + 1),
    ∀ p ∈ completedPaths (evs.take n), p ∈ queuedPaths (evs.take n)

instance (evs : List SaverEv) : Decidable (WfTrace evs) := by
  unfold WfTrace
  infer_instance

theorem queuedPaths_append (l₁ l₂ : List SaverEv) :
    queuedPaths (l₁ ++ l₂) = queuedPaths l₁ ++ queuedPaths l₂ := by
  simp [queuedPaths]

theorem completedPaths_append (l₁ l₂ : List SaverEv) :
    completedPaths (l₁ ++ l₂) = completedPaths l₁ ++ completedPaths l₂ := by
  simp [completedPaths]

theorem wfTrace_of_append (evs : List SaverEv) (e : SaverEv)
    (h : WfTrace (evs ++ [e])) : WfTrace evs := by
  obtain ⟨h1, h2, h3⟩ := h
  rw [queuedPaths_append] at h1
  rw [completedPaths_append] at h2
  refine ⟨(List.nodup_append.mp h1).1, (List.nodup_append.mp h2).1, ?_⟩
  intro n hn p hp
  simp only [List.mem_range] at hn
  have hlen : n ≤ evs.length := by omega
  have htake : (evs ++ [e]).take n = evs.take n := by
    rw [List.take_append_of_le_length hlen]
  have := h3 n (by simp; omega) p (by rwa [htake])
  rwa [htake] at this

theorem mem_removeFirst_of_ne (l : List String) (p q : String) (h : q ≠ p) :
    q ∈ removeFirst l p ↔ q ∈ l := by
  induction l with
  | nil => simp [removeFirst]
  | cons x t ih =>
      by_cases hx : x = p
      · simp only [removeFirst, if_pos hx, List.mem_cons]
        constructor
        · intro hq; exact Or.inr hq
        · rintro (rfl | hq)
          · exact absurd hx h
          · exact hq
      · simp only [removeFirst, if_neg hx, List.mem_cons]
        rw [ih]

theorem removeFirst_sublist (l : List String) (p : String) :
    List.Sublist (removeFirst l p) l := by
  induction l with
  | nil => simp [removeFirst]
  | cons x t ih =>
      by_cases hx : x = p
      · simp only [removeFirst, if_pos hx]
        exact (List.sublist_cons_self x t)
      · simp only [removeFirst, if_neg hx]
        exact ih.cons₂ x

theorem not_mem_removeFirst_self (l : List String) (p : String)
    (hnd : l.Nodup) : p ∉ removeFirst l p := by
  induction l with
  | nil => simp [removeFirst]
  | cons x t ih =>
      rw [List.nodup_cons] at hnd
      by_cases hx : x = p
      · simp only [removeFirst, if_pos hx]
        exact hx ▸ hnd.1
      · simp only [removeFirst, if_neg hx, List.mem_cons]
        rintro (rfl | hmem)
        · exact hx rfl
        · exact ih hnd.2 hmem

theorem runSaver_spec (evs : List SaverEv) (hwf : WfTrace evs) :
    (runSaver evs).pendingSaves.Nodup ∧
    ∀ p, p ∈ (runSaver evs).pendingSaves ↔
      (p ∈ queuedPaths evs ∧ p ∉ completedPaths evs) := by
  induction evs using List.reverseRecOn with
  | nil => simp [runSaver, queuedPaths, completedPaths]
  | append_singleton l e ih =>
      have hwl := wfTrace_of_append l e hwf
      obtain ⟨ihnd, ihmem⟩ := ih hwl
      have hrun : runSaver (l ++ [e]) = stepSaver (runSaver l) e := by
        simp [runSaver, List.foldl_append]
      cases e with
      | queue p =>
          have hq : queuedPaths (l ++ [.queue p]) = queuedPaths l ++ [p] := by
            simp [queuedPaths_append, queuedPaths]
          have hc : completedPaths (l ++ [.queue p]) = completedPaths l := by
            simp [completedPaths_append, completedPaths]
          have hpnotq : p ∉ queuedPaths l := by
            have := hwf.1
            rw [hq] at this
            intro hmem
            exact (List.nodup_append.mp this).2.2 hmem (by simp)
          have hpnotc : p ∉ completedPaths l := by
            intro hmem
            have h3 := hwl.2.2 l.length (by simp) p
            rw [List.take_length] at h3
            exact hpnotq (h3 hmem)
          have hpnotpend : p ∉ (runSaver l).pendingSaves := by
            intro hmem
            exact hpnotq ((ihmem p).mp hmem).1
          rw [hrun]
          simp only [stepSaver, queueSave]
          constructor
          · simpa using List.Nodup.append ihnd (by simp)
              (by simpa [List.disjoint_singleton] using hpnotpend)
          · intro q
            rw [hq, hc]
            simp only [List.mem_append, List.mem_singleton]
            constructor
            · rintro (hmem | rfl)
              · obtain ⟨hqq, hqc⟩ := (ihmem q).mp hmem
                exact ⟨Or.inl hqq, hqc⟩
              · exact ⟨Or.inr rfl, hpnotc⟩
            · rintro ⟨hqq | rfl, hqc⟩
              · exact Or.inl ((ihmem q).mpr ⟨hqq, hqc⟩)
              · exact Or.inr rfl
      | complete p =>
          have hq : queuedPaths (l ++ [.complete p]) = queuedPaths l := by
            simp [queuedPaths_append, queuedPaths]
          have hc : completedPaths (l ++ [.complete p]) = completedPaths l ++ [p] := by
            simp [completedPaths_append, completedPaths]
          have hpnotc : p ∉ completedPaths l := by
            have := hwf.2.1
            rw [hc] at this
            intro hmem
            exact (List.nodup_append.mp this).2.2 hmem (by simp)
          have hpq : p ∈ queuedPaths l := by
            have h3 := hwf.2.2 (l.length + 1) (by simp) p
            have htake : (l ++ [SaverEv.complete p]).take (l.length + 1)
                = l ++ [SaverEv.complete p] := by
              apply List.take_of_length_le
              simp
            rw [htake, hq, hc] at h3
            apply h3
            simp
          rw [hrun]
          simp only [stepSaver, checkCompletions, List.foldl_cons, List.foldl_nil]
          constructor
          · exact ihnd.sublist (removeFirst_sublist _ _)
          · intro q
            rw [hq, hc]
            by_cases hqp : q = p
            · subst hqp
              constructor
              · intro hmem
                exact absurd hmem (not_mem_removeFirst_self _ q ihnd)
              · rintro ⟨_, hnc⟩
                exact absurd (List.mem_append.mpr (Or.inr (by simp))) hnc
            · rw [mem_removeFirst_of_ne _ _ _ hqp, ihmem q]
              constructor
              · rintro ⟨hqq, hqc⟩
                refine ⟨hqq, fun hmem => ?_⟩
                rcases List.mem_append.mp hmem with hmem | hmem
                · exact hqc hmem
                · exact hqp (List.mem_singleton.mp hmem)
              · rintro ⟨hqq, hqc⟩
                exact ⟨hqq, fun hmem => hqc (List.mem_append.mpr (Or.inl hmem))⟩

/-- Counterexample to C2: when the worker channel is closed,
`queue_save` fails — yet the destination path has already been pushed
onto `pending_saves`, so the enqueue failure does NOT leave the set
unchanged. -/
theorem c2_queue_counterexample :
    (queueSave ⟨[], false⟩ "a").2 = false
    ∧ "a" ∈ (queueSave ⟨[], false⟩ "a").1.pendingSaves := by
  decide

/-- C2 (amended): `queue_save` always appends the destination path to
`pending_saves` (even when the enqueue fails because the channel is
closed), and the send succeeds iff the channel is open; on traces of
successful enqueues of distinct destinations and their drained
statuses, a path is pending iff it was queued and its status has not
yet been observed. -/
theorem c2_pending_spec :
    (∀ (s : SaverState) (p : String),
        (queueSave s p).1.pendingSaves = s.pendingSaves ++ [p]
        ∧ ((queueSave s p).2 = true ↔ s.channelOpen = true))
    ∧ (∀ evs : List SaverEv, WfTrace evs →
        ∀ p, p ∈ (runSaver evs).pendingSaves ↔
          (p ∈ queuedPaths evs ∧ p ∉ completedPaths evs)) := by
  refine ⟨fun s p => ⟨rfl, Iff.rfl⟩, fun evs hwf => (runSaver_spec evs hwf).2⟩

/-- Witness for C2: the pending-set characterisation on a concrete
well-formed trace. -/
theorem c2_pending_spec_witness :
    ∀ p, p ∈ (runSaver [.queue "a", .queue "b", .complete "a"]).pendingSaves ↔
      (p ∈ queuedPaths [.queue "a", .queue "b", .complete "a"]
        ∧ p ∉ completedPaths [.queue "a", .queue "b", .complete "a"]) :=
  c2_pending_spec.2 [.queue "a", .queue "b", .complete "a"] (by decide)

/-! ## image_utils: combine_crops (src/image_utils.rs lines 63-120)

The crops are abstracted to their dimensions (the packing never
inspects pixels).  `combine_crops` sorts by height descending
(`sort_by(|a, b| b.height().cmp(&a.height()))`, a stable sort,
modelled by `mergeSort` with the corresponding `≤` test), then runs
the shelf loop; the final canvas is `RgbaImage::new(canvas_width,
canvas_height)`.  The width budget `max_width` is computed from the
total area with `f64::sqrt().ceil() * 2`; the claims hold for every
budget, so the packing is parameterised by it, and the concrete
budget is modelled with the exact integer ceiling square root. -/

/-- A crop piece, abstracted to its dimensions. -/
structure Img where
  w : Nat
  h : Nat
deriving DecidableEq, Repr

/-- The stable height-descending sort
(`crops.sort_by(|a, b| b.height().cmp(&a.height()))`). -/
def sortCrops (crops : List Img) : List Img :=
  crops.mergeSort (fun a b => decide (b.h ≤ a.h))

/-- A piece placed at a shelf position. -/
structure Placed where
  x : Nat
  y : Nat
  img : Img
deriving DecidableEq, Repr

/-- The loop state of the shelf pass (`current_x`, `current_y`,
`row_height`, `canvas_width`, `canvas_height` and the `placed`
vector). -/
structure PackState where
  placed : List Placed
  currentX : Nat
  currentY : Nat
  rowHeight : Nat
  canvasW : Nat
  canvasH : Nat
deriving DecidableEq, Repr

/-- The state before the first loop iteration. -/
def initPack : PackState := ⟨[], 0, 0, 0, 0, 0⟩

/-- One iteration of the shelf loop (image_utils.rs lines 89-108):
wrap to a new row when `current_x + img.width() > max_width &&
current_x > 0`, place, bump the row height, advance `current_x`, and
grow the canvas bounds. -/
def packStep (maxW : Nat) (s : PackState) (img : Img) : PackState :=
  let s2 :=
    if maxW < s.currentX + img.w ∧ 0 < s.currentX then
      { s with currentX := 0, currentY := s.currentY + s.rowHeight, rowHeight := 0 }
    else s
  { placed := s2.placed ++ [⟨s2.currentX, s2.currentY, img⟩]
    currentX := s2.currentX + img.w
    currentY := s2.currentY
    rowHeight := max s2.rowHeight img.h
    canvasW := max s2.canvasW (s2.currentX + img.w)
    canvasH := max s2.canvasH (s2.currentY + max s2.rowHeight img.h) }

/-- The whole shelf pass of `combine_crops` for a given width budget. -/
def packCrops (maxW : Nat) (crops : List Img) : PackState :=
  (sortCrops crops).foldl (packStep maxW) initPack

/-- Integer ceiling square root (model of `f64::sqrt().ceil()`). -/
def natCeilSqrt (n : Nat) : Nat :=
  if Nat.sqrt n * Nat.sqrt n = n then Nat.sqrt n else Nat.sqrt n + 1

/-- Total area of the pieces. -/
def totalArea (crops : List Img) : Nat := (crops.map fun i => i.w * i.h).sum

/-- The width budget `max_width` of `combine_crops` (line 71). -/
def widthBudget (crops : List Img) : Nat := natCeilSqrt (totalArea crops) * 2

/-- Dimensions of the canvas returned by `combine_crops`. -/
def combineCropsDims (crops : List Img) : Img :=
  let st := packCrops (widthBudget crops) crops
  ⟨st.canvasW, st.canvasH⟩

/-- Two placed pieces overlap when their open rectangles intersect
with positive area. -/
def overlaps (p q : Placed) : Prop :=
  p.x < q.x + q.img.w ∧ q.x < p.x + p.img.w ∧
  p.y < q.y + q.img.h ∧ q.y < p.y + p.img.h

/-- Maximum of a list of naturals (0 for the empty list). -/
def natMax (l : List Nat) : Nat := l.foldr max 0

/-- Right edge of the bounding box of the placed pieces. -/
def maxXW (ps : List Placed) : Nat := natMax (ps.map fun p => p.x + p.img.w)

/-- Bottom edge of the bounding box of the placed pieces. -/
def maxYH (ps : List Placed) : Nat := natMax (ps.map fun p => p.y + p.img.h)

/-- Height of the tallest piece placed in the row at height `y`. -/
def rowTallest (ps : List Placed) (y : Nat) : Nat :=
  natMax ((ps.filter fun p => p.y = y).map fun p => p.img.h)

theorem natMax_cons (x : Nat) (t : List Nat) :
    natMax (x :: t) = max x (natMax t) := rfl

theorem natMax_append_singleton (l : List Nat) (a : Nat) :
    natMax (l ++ [a]) = max (natMax l) a := by
  induction l with
  | nil => simp [natMax]
  | cons x t ih =>
      rw [List.cons_append, natMax_cons, natMax_cons, ih]
      omega

theorem le_natMax_of_mem {l : List Nat} {a : Nat} (h : a ∈ l) : a ≤ natMax l := by
  induction l with
  | nil => simp at h
  | cons x t ih =>
      rw [natMax_cons]
      rcases List.mem_cons.mp h with rfl | h
      · omega
      · have := ih h
        omega

theorem natMax_attained (l : List Nat) : natMax l = 0 ∨ natMax l ∈ l := by
  induction l with
  | nil => left; rfl
  | cons x t ih =>
      rw [natMax_cons]
      rcases Nat.le_total x (natMax t) with h | h
      · rcases ih with h0 | hm
        · left; omega
        · right
          rw [Nat.max_eq_right h]
          exact List.mem_cons_of_mem x hm
      · right
        rw [Nat.max_eq_left h]
        exact List.mem_cons_self x t

theorem rowTallest_append_ne (ps : List Placed) (q : Placed) (y : Nat)
    (h : q.y ≠ y) : rowTallest (ps ++ [q]) y = rowTallest ps y := by
  unfold rowTallest
  rw [List.filter_append]
  have : List.filter (fun p => decide (p.y = y)) [q] = [] := by
    simp [List.filter, h]
  rw [this, List.append_nil]

theorem rowTallest_append_eq (ps : List Placed) (q : Placed) (y : Nat)
    (h : q.y = y) : rowTallest (ps ++ [q]) y = max (rowTallest ps y) q.img.h := by
  unfold rowTallest
  rw [List.filter_append]
  have : List.filter (fun p => decide (p.y = y)) [q] = [q] := by
    simp [List.filter, h]
  rw [this, List.map_append]
  simp only [List.map_cons, List.map_nil]
  exact natMax_append_singleton _ _

theorem rowTallest_eq_zero_of_none (ps : List Placed) (y : Nat)
    (h : ∀ p ∈ ps, p.y ≠ y) : rowTallest ps y = 0 := by
  unfold rowTallest
  have : List.filter (fun p => decide (p.y = y)) ps = [] := by
    rw [List.filter_eq_nil_iff]
    intro p hp
    simp [h p hp]
  rw [this]
  rfl

theorem piece_le_rowTallest {ps : List Placed} {p : Placed} (hp : p ∈ ps)
    {y : Nat} (hy : p.y = y) : p.img.h ≤ rowTallest ps y := by
  apply le_natMax_of_mem
  apply List.mem_map_of_mem
  rw [List.mem_filter]
  exact ⟨hp, by simp [hy]⟩

theorem rowTallest_le_maxYH (ps : List Placed) (y : Nat) :
    rowTallest ps y = 0 ∨ y + rowTallest ps y ≤ maxYH ps := by
  rcases natMax_attained ((ps.filter fun p => p.y = y).map fun p => p.img.h)
      with h0 | hm
  · left; exact h0
  · right
    obtain ⟨p, hpmem, hph⟩ := List.mem_map.mp hm
    obtain ⟨hps, hpy⟩ := List.mem_filter.mp hpmem
    have hpy2 : p.y = y := by simpa using hpy
    have : p.y + p.img.h ≤ maxYH ps :=
      le_natMax_of_mem (List.mem_map_of_mem _ hps)
    rw [rowTallest]
    omega

theorem maxXW_append_singleton (ps : List Placed) (q : Placed) :
    maxXW (ps ++ [q]) = max (maxXW ps) (q.x + q.img.w) := by
  unfold maxXW
  rw [List.map_append]
  simp only [List.map_cons, List.map_nil]
  exact natMax_append_singleton _ _

theorem maxYH_append_singleton (ps : List Placed) (q : Placed) :
    maxYH (ps ++ [q]) = max (maxYH ps) (q.y + q.img.h) := by
  unfold maxYH
  rw [List.map_append]
  simp only [List.map_cons, List.map_nil]
  exact natMax_append_singleton _ _

/-- The relation between a placed piece and its successor: continue
the row, or wrap — wrapping exactly when the width budget would be
exceeded and the current row is non-empty, with y advanced by the
tallest piece of the finished row. -/
def pairCond (maxW : Nat) (p q : Placed) (tallest : Nat) : Prop :=
  if maxW < p.x + p.img.w + q.img.w ∧ 0 < p.x + p.img.w then
    q.x = 0 ∧ q.y = p.y + tallest
  else
    q.x = p.x + p.img.w ∧ q.y = p.y

/-- Shelf structure of a placement list: every consecutive pair obeys
`pairCond` with the tallest piece of the earlier piece's row. -/
def pairsOk (maxW : Nat) (ps : List Placed) : Prop :=
  ∀ i, ∀ hi : i + 1 < ps.length,
    pairCond maxW (ps.get ⟨i, Nat.lt_of_succ_lt hi⟩) (ps.get ⟨i + 1, hi⟩)
      (rowTallest ps (ps.get ⟨i, Nat.lt_of_succ_lt hi⟩).y)

/-- Invariant of the shelf loop, relating the loop registers to the
placed pieces. -/
structure PackInv (maxW : Nat) (s : PackState) : Prop where
  posH : ∀ p ∈ s.placed, 0 < p.img.h
  lastNone : s.placed = [] → s.currentX = 0 ∧ s.currentY = 0 ∧ s.rowHeight = 0
  lastSome : ∀ p, s.placed.getLast? = some p →
      s.currentX = p.x + p.img.w ∧ s.currentY = p.y
  rowH : s.rowHeight = rowTallest s.placed s.currentY
  yle : ∀ p ∈ s.placed, p.y ≤ s.currentY
  rowEnd : ∀ p ∈ s.placed, p.y + p.img.h ≤ s.currentY + s.rowHeight
  prevRows : ∀ p ∈ s.placed, p.y < s.currentY → p.y + p.img.h ≤ s.currentY
  curRow : ∀ p ∈ s.placed, p.y = s.currentY → p.x + p.img.w ≤ s.currentX
  noOv : s.placed.Pairwise (fun p q => ¬ overlaps p q)
  headOrigin : ∀ p, s.placed.head? = some p → p.x = 0 ∧ p.y = 0
  cw : s.canvasW = maxXW s.placed
  ch : s.canvasH = maxYH s.placed
  pairs : pairsOk maxW s.placed

theorem initPack_inv (maxW : Nat) : PackInv maxW initPack where
  posH := by simp [initPack]
  lastNone := fun _ => ⟨rfl, rfl, rfl⟩
  lastSome := by simp [initPack]
  rowH := rfl
  yle := by simp [initPack]
  rowEnd := by simp [initPack]
  prevRows := by simp [initPack]
  curRow := by simp [initPack]
  noOv := by simp [initPack]
  headOrigin := by simp [initPack]
  cw := rfl
  ch := rfl
  pairs := by intro i hi; simp [initPack] at hi

theorem pairsOk_extend (maxW : Nat) (ps : List Placed) (q : Placed)
    (hpos : ∀ p ∈ ps, 0 < p.img.h)
    (hyle : ∀ p ∈ ps, p.y ≤ q.y)
    (hold : pairsOk maxW ps)
    (hnew : ∀ p₀, ps.getLast? = some p₀ →
        pairCond maxW p₀ q (rowTallest (ps ++ [q]) p₀.y)) :
    pairsOk maxW (ps ++ [q]) := by
  intro i hi
  have hlen : (ps ++ [q]).length = ps.length + 1 := by simp
  by_cases hi2 : i + 1 < ps.length
  · have hgi : (ps ++ [q]).get ⟨i, Nat.lt_of_succ_lt hi⟩
        = ps.get ⟨i, Nat.lt_of_succ_lt hi2⟩ := by
      simp [List.get_eq_getElem, List.getElem_append_left (Nat.lt_of_succ_lt hi2)]
    have hgi1 : (ps ++ [q]).get ⟨i + 1, hi⟩ = ps.get ⟨i + 1, hi2⟩ := by
      simp [List.get_eq_getElem, List.getElem_append_left hi2]
    rw [hgi, hgi1]
    have holdp := hold i hi2
    set pi := ps.get ⟨i, Nat.lt_of_succ_lt hi2⟩ with hpi
    set pj := ps.get ⟨i + 1, hi2⟩ with hpj
    have hpimem : pi ∈ ps := by rw [hpi, List.get_eq_getElem]; exact List.getElem_mem _
    have hpjmem : pj ∈ ps := by rw [hpj, List.get_eq_getElem]; exact List.getElem_mem _
    by_cases hcond : maxW < pi.x + pi.img.w + pj.img.w ∧ 0 < pi.x + pi.img.w
    · have holdp2 := holdp
      simp only [pairCond, if_pos hcond] at holdp2
      have htall : 0 < rowTallest ps pi.y := by
        have h1 := piece_le_rowTallest hpimem rfl
        have h2 := hpos pi hpimem
        omega
      have hlt : pi.y < pj.y := by omega
      have hne : q.y ≠ pi.y := by
        have := hyle pj hpjmem
        omega
      simp only [pairCond, if_pos hcond, rowTallest_append_ne _ _ _ hne]
      exact holdp2
    · simp only [pairCond, if_neg hcond] at holdp ⊢
      exact holdp
  · have hieq : i + 1 = ps.length := by omega
    have hne2 : ps ≠ [] := by
      intro h
      rw [h] at hieq
      simp at hieq
    obtain ⟨p₀, hlast⟩ := Option.isSome_iff_exists.mp
      (List.getLast?_isSome.mpr hne2)
    have hilt : i < ps.length := by omega
    have hgetp : ps.get ⟨i, hilt⟩ = p₀ := by
      have h1 := List.getLast?_eq_getElem? ps
      rw [hlast] at h1
      have h2 : ps[ps.length - 1]? = some (ps.get ⟨i, hilt⟩) := by
        rw [List.get_eq_getElem]
        have : ps.length - 1 = i := by omega
        rw [this, List.getElem?_eq_getElem hilt]
      rw [h2] at h1
      exact (Option.some_injective _ h1).symm
    have hgi : (ps ++ [q]).get ⟨i, Nat.lt_of_succ_lt hi⟩ = p₀ := by
      rw [List.get_eq_getElem, List.getElem_append_left hilt,
        ← List.get_eq_getElem ps ⟨i, hilt⟩, hgetp]
    have hgi1 : (ps ++ [q]).get ⟨i + 1, hi⟩ = q := by
      rw [List.get_eq_getElem]
      exact List.getElem_concat_length ps q (i + 1) hieq _
    rw [hgi, hgi1]
    exact hnew p₀ hlast

theorem packStep_inv (maxW : Nat) (s : PackState) (img : Img)
    (hpos : 0 < img.h) (inv : PackInv maxW s) :
    PackInv maxW (packStep maxW s img) := by
  by_cases hc : maxW < s.currentX + img.w ∧ 0 < s.currentX
  · -- the piece wraps to a new row
    have hne : s.placed ≠ [] := by
      intro h
      have := (inv.lastNone h).1
      omega
    obtain ⟨p₀, hlast⟩ := Option.isSome_iff_exists.mp
      (List.getLast?_isSome.mpr hne)
    obtain ⟨hx0, hy0⟩ := inv.lastSome p₀ hlast
    have hp₀mem : p₀ ∈ s.placed := List.mem_of_mem_getLast? hlast
    have hrh : 0 < s.rowHeight := by
      have h1 : p₀.img.h ≤ rowTallest s.placed s.currentY :=
        piece_le_rowTallest hp₀mem hy0.symm
      have h2 := inv.posH p₀ hp₀mem
      rw [← inv.rowH] at h1
      omega
    have hstep : packStep maxW s img =
        { placed := s.placed ++ [⟨0, s.currentY + s.rowHeight, img⟩]
          currentX := img.w
          currentY := s.currentY + s.rowHeight
          rowHeight := img.h
          canvasW := max s.canvasW img.w
          canvasH := max s.canvasH (s.currentY + s.rowHeight + img.h) } := by
      simp [packStep, hc]
    rw [hstep]
    have hqy : (⟨0, s.currentY + s.rowHeight, img⟩ : Placed).y
        = s.currentY + s.rowHeight := rfl
    refine
      { posH := ?_, lastNone := ?_, lastSome := ?_, rowH := ?_, yle := ?_
        rowEnd := ?_, prevRows := ?_, curRow := ?_, noOv := ?_
        headOrigin := ?_, cw := ?_, ch := ?_, pairs := ?_ }
    · intro p hp
      rcases List.mem_append.mp hp with h | h
      · exact inv.posH p h
      · rw [List.mem_singleton] at h
        subst h
        exact hpos
    · intro h
      simp at h
    · intro p hp
      rw [List.getLast?_concat] at hp
      injection hp with hp
      subst hp
      exact ⟨by simp, rfl⟩
    · show img.h = rowTallest (s.placed ++ [_]) (s.currentY + s.rowHeight)
      have hnone : ∀ p ∈ s.placed, p.y ≠ s.currentY + s.rowHeight := by
        intro p hp
        have := inv.yle p hp
        omega
      rw [rowTallest_append_eq _ _ _ hqy, rowTallest_eq_zero_of_none _ _ hnone]
      simp
    · intro p hp
      rcases List.mem_append.mp hp with h | h
      · have := inv.yle p h
        simp only []
        omega
      · rw [List.mem_singleton] at h
        subst h
        simp
    · intro p hp
      rcases List.mem_append.mp hp with h | h
      · have := inv.rowEnd p h
        simp only []
        omega
      · rw [List.mem_singleton] at h
        subst h
        simp
    · intro p hp hlt
      rcases List.mem_append.mp hp with h | h
      · have := inv.rowEnd p h
        simp only [] at hlt ⊢
        omega
      · rw [List.mem_singleton] at h
        subst h
        simp at hlt
    · intro p hp heq
      rcases List.mem_append.mp hp with h | h
      · have := inv.yle p h
        simp only [] at heq
        omega
      · rw [List.mem_singleton] at h
        subst h
        simp
    · rw [List.pairwise_append]
      refine ⟨inv.noOv, by simp, ?_⟩
      intro a ha b hb
      rw [List.mem_singleton] at hb
      subst hb
      intro hov
      have h4 := hov.2.2.2
      have h5 := inv.rowEnd a ha
      simp only [] at h4
      omega
    · intro p hp
      obtain ⟨b, L, hbl⟩ := List.exists_cons_of_ne_nil hne
      rw [hbl] at hp
      simp only [List.cons_append, List.head?_cons] at hp
      injection hp with hp
      subst hp
      exact inv.headOrigin _ (by rw [hbl]; rfl)
    · show max s.canvasW img.w = maxXW (s.placed ++ [_])
      rw [maxXW_append_singleton, inv.cw]
      simp
    · show max s.canvasH (s.currentY + s.rowHeight + img.h)
        = maxYH (s.placed ++ [_])
      rw [maxYH_append_singleton, inv.ch]
    · apply pairsOk_extend maxW s.placed _ inv.posH
      · intro p hp
        have := inv.yle p hp
        simp only []
        omega
      · exact inv.pairs
      · intro p₁ hlast₁
        rw [hlast] at hlast₁
        injection hlast₁ with hlast₁
        subst hlast₁
        have hcond : maxW < p₀.x + p₀.img.w + img.w ∧ 0 < p₀.x + p₀.img.w := by
          rw [← hx0]
          exact hc
        simp only [pairCond, if_pos hcond]
        have hne2 : (⟨0, s.currentY + s.rowHeight, img⟩ : Placed).y ≠ p₀.y := by
          simp only []
          omega
        rw [rowTallest_append_ne _ _ _ hne2, ← hy0, ← inv.rowH]
        simp
  · -- the piece continues the current row
    have hstep : packStep maxW s img =
        { placed := s.placed ++ [⟨s.currentX, s.currentY, img⟩]
          currentX := s.currentX + img.w
          currentY := s.currentY
          rowHeight := max s.rowHeight img.h
          canvasW := max s.canvasW (s.currentX + img.w)
          canvasH := max s.canvasH (s.currentY + max s.rowHeight img.h) } := by
      simp [packStep, hc]
    rw [hstep]
    have hqy : (⟨s.currentX, s.currentY, img⟩ : Placed).y = s.currentY := rfl
    refine
      { posH := ?_, lastNone := ?_, lastSome := ?_, rowH := ?_, yle := ?_
        rowEnd := ?_, prevRows := ?_, curRow := ?_, noOv := ?_
        headOrigin := ?_, cw := ?_, ch := ?_, pairs := ?_ }
    · intro p hp
      rcases List.mem_append.mp hp with h | h
      · exact inv.posH p h
      · rw [List.mem_singleton] at h
        subst h
        exact hpos
    · intro h
      simp at h
    · intro p hp
      rw [List.getLast?_concat] at hp
      injection hp with hp
      subst hp
      exact ⟨rfl, rfl⟩
    · show max s.rowHeight img.h = rowTallest (s.placed ++ [_]) s.currentY
      rw [rowTallest_append_eq _ _ _ hqy, ← inv.rowH]
    · intro p hp
      rcases List.mem_append.mp hp with h | h
      · exact inv.yle p h
      · rw [List.mem_singleton] at h
        subst h
        simp
    · intro p hp
      rcases List.mem_append.mp hp with h | h
      · have := inv.rowEnd p h
        simp only []
        omega
      · rw [List.mem_singleton] at h
        subst h
        simp only []
        omega
    · intro p hp hlt
      rcases List.mem_append.mp hp with h | h
      · exact inv.prevRows p h hlt
      · rw [List.mem_singleton] at h
        subst h
        simp at hlt
    · intro p hp heq
      rcases List.mem_append.mp hp with h | h
      · have := inv.curRow p h heq
        simp only []
        omega
      · rw [List.mem_singleton] at h
        subst h
        simp
    · rw [List.pairwise_append]
      refine ⟨inv.noOv, by simp, ?_⟩
      intro a ha b hb
      rw [List.mem_singleton] at hb
      subst hb
      intro hov
      have hy := inv.yle a ha
      rcases Nat.lt_or_ge a.y s.currentY with hlt | hge
      · have h5 := inv.prevRows a ha hlt
        have h4 := hov.2.2.2
        simp only [] at h4
        omega
      · have heq : a.y = s.currentY := by omega
        have h5 := inv.curRow a ha heq
        have h2 := hov.2.1
        simp only [] at h2
        omega
    · intro p hp
      cases hplaced : s.placed with
      | nil =>
          rw [hplaced] at hp
          simp only [List.nil_append, List.head?_cons] at hp
          injection hp with hp
          subst hp
          obtain ⟨hcx, hcy, _⟩ := inv.lastNone hplaced
          exact ⟨hcx, hcy⟩
      | cons b L =>
          rw [hplaced] at hp
          simp only [List.cons_append, List.head?_cons] at hp
          injection hp with hp
          subst hp
          exact inv.headOrigin _ (by rw [hplaced]; rfl)
    · show max s.canvasW (s.currentX + img.w) = maxXW (s.placed ++ [_])
      rw [maxXW_append_singleton, inv.cw]
    · show max s.canvasH (s.currentY + max s.rowHeight img.h)
        = maxYH (s.placed ++ [_])
      rw [maxYH_append_singleton, inv.ch]
      have hrt := rowTallest_le_maxYH s.placed s.currentY
      rw [← inv.rowH] at hrt
      rcases hrt with h0 | hle
      · rw [h0]
        simp
      · simp only []
        omega
    · apply pairsOk_extend maxW s.placed _ inv.posH
      · intro p hp
        exact inv.yle p hp
      · exact inv.pairs
      · intro p₁ hlast₁
        obtain ⟨hx0, hy0⟩ := inv.lastSome p₁ hlast₁
        have hcond : ¬(maxW < p₁.x + p₁.img.w + img.w ∧ 0 < p₁.x + p₁.img.w) := by
          rw [← hx0]
          exact hc
        simp only [pairCond, if_neg hcond]
        exact ⟨hx0, hy0⟩

theorem packFold_inv (maxW : Nat) (l : List Img) (s : PackState)
    (hl : ∀ i ∈ l, 0 < i.h) (inv : PackInv maxW s) :
    PackInv maxW (l.foldl (packStep maxW) s) := by
  induction l generalizing s with
  | nil => simpa using inv
  | cons x t ih =>
      simp only [List.foldl_cons]
      exact ih (packStep maxW s x) (fun i hi => hl i (by simp [hi]))
        (packStep_inv maxW s x (hl x (by simp)) inv)

theorem packStep_placed_map (maxW : Nat) (s : PackState) (x : Img) :
    (packStep maxW s x).placed.map (fun p => p.img)
      = s.placed.map (fun p => p.img) ++ [x] := by
  by_cases hc : maxW < s.currentX + x.w ∧ 0 < s.currentX <;>
    simp [packStep, hc]

theorem packFold_map_img (maxW : Nat) (l : List Img) (s : PackState) :
    ((l.foldl (packStep maxW) s).placed).map (fun p => p.img)
      = s.placed.map (fun p => p.img) ++ l := by
  induction l generalizing s with
  | nil => simp
  | cons x t ih =>
      simp only [List.foldl_cons]
      rw [ih (packStep maxW s x), packStep_placed_map, List.append_assoc]
      rfl

theorem sortCrops_sorted (crops : List Img) :
    (sortCrops crops).Pairwise (fun a b => b.h ≤ a.h) := by
  have h := @List.sorted_mergeSort Img
    (fun a b : Img => decide (b.h ≤ a.h))
    (fun a b c hab hbc => by simp only [decide_eq_true_eq] at *; omega)
    (fun a b => by simp only [Bool.or_eq_true, decide_eq_true_eq]; omega)
    crops
  exact h.imp (by intro a b hab; simpa using hab)

theorem sortCrops_perm (crops : List Img) : (sortCrops crops).Perm crops :=
  List.mergeSort_perm crops _

/-- C7: for every non-empty list of crop pieces, `combine_crops`
processes the pieces in height-descending order (a permutation of the
input), places them left-to-right, starting a new row — with x reset
to 0 and y advanced by the tallest piece of the finished row —
exactly when the next piece would exceed the width budget and the
current row is non-empty; no two placed pieces overlap, and the
output canvas dimensions equal the bounding box of the placed pieces
(whose first piece sits at the origin). -/
theorem c7_combineCrops_spec (maxW : Nat) (crops : List Img)
    (hne : crops ≠ []) (hpos : ∀ i ∈ crops, 0 < i.w ∧ 0 < i.h) :
    ((packCrops maxW crops).placed.map (fun p => p.img) = sortCrops crops
      ∧ (sortCrops crops).Perm crops
      ∧ ((packCrops maxW crops).placed.map fun p => p.img).Pairwise
          (fun a b => b.h ≤ a.h))
    ∧ pairsOk maxW (packCrops maxW crops).placed
    ∧ (packCrops maxW crops).placed.Pairwise (fun p q => ¬ overlaps p q)
    ∧ (packCrops maxW crops).canvasW = maxXW (packCrops maxW crops).placed
    ∧ (packCrops maxW crops).canvasH = maxYH (packCrops maxW crops).placed
    ∧ (∀ p, (packCrops maxW crops).placed.head? = some p → p.x = 0 ∧ p.y = 0)
    ∧ (packCrops maxW crops).placed ≠ [] := by
  have hl : ∀ i ∈ sortCrops crops, 0 < i.h := by
    intro i hi
    exact (hpos i ((sortCrops_perm crops).mem_iff.mp hi)).2
  have inv : PackInv maxW (packCrops maxW crops) :=
    packFold_inv maxW (sortCrops crops) initPack hl (initPack_inv maxW)
  have hmap : (packCrops maxW crops).placed.map (fun p => p.img)
      = sortCrops crops := by
    have := packFold_map_img maxW (sortCrops crops) initPack
    simpa [packCrops, initPack] using this
  refine ⟨⟨hmap, sortCrops_perm crops, ?_⟩, inv.pairs, inv.noOv, inv.cw, inv.ch,
    inv.headOrigin, ?_⟩
  · rw [hmap]
    exact sortCrops_sorted crops
  · intro hempty
    have hlen := congrArg List.length hmap
    rw [hempty] at hlen
    simp only [List.map_nil, List.length_nil] at hlen
    have : crops.length = 0 := by
      have := (sortCrops_perm crops).length_eq
      omega
    exact hne (List.eq_nil_of_length_eq_zero this)

/-- Witness for C7: the packing specification at a concrete pair of
pieces. -/
theorem c7_combineCrops_spec_witness :
    ((packCrops 4 [⟨2, 3⟩, ⟨2, 2⟩]).placed.map (fun p => p.img)
        = sortCrops [⟨2, 3⟩, ⟨2, 2⟩]
      ∧ (sortCrops [⟨2, 3⟩, ⟨2, 2⟩]).Perm [⟨2, 3⟩, ⟨2, 2⟩]
      ∧ ((packCrops 4 [⟨2, 3⟩, ⟨2, 2⟩]).placed.map fun p => p.img).Pairwise
          (fun a b => b.h ≤ a.h))
    ∧ pairsOk 4 (packCrops 4 [⟨2, 3⟩, ⟨2, 2⟩]).placed
    ∧ (packCrops 4 [⟨2, 3⟩, ⟨2, 2⟩]).placed.Pairwise (fun p q => ¬ overlaps p q)
    ∧ (packCrops 4 [⟨2, 3⟩, ⟨2, 2⟩]).canvasW
        = maxXW (packCrops 4 [⟨2, 3⟩, ⟨2, 2⟩]).placed
    ∧ (packCrops 4 [⟨2, 3⟩, ⟨2, 2⟩]).canvasH
        = maxYH (packCrops 4 [⟨2, 3⟩, ⟨2, 2⟩]).placed
    ∧ (∀ p, (packCrops 4 [⟨2, 3⟩, ⟨2, 2⟩]).placed.head? = some p →
        p.x = 0 ∧ p.y = 0)
    ∧ (packCrops 4 [⟨2, 3⟩, ⟨2, 2⟩]).placed ≠ [] :=
  c7_combineCrops_spec 4 [⟨2, 3⟩, ⟨2, 2⟩] (by decide) (by decide)

/-! ## Navigation controller (src/app/mod.rs)

The `ImageCropperApp` state is embedded field by field; decoded
images and textures are abstracted to identifiers, selections to the
result of `to_u32_bounds`, and the distinct status messages to a
status code.  The egui context is modelled by the `closed` flag
(whether `ViewportCommand::Close` has been sent) and the
`windowedModeSet` flag.  Pixel payloads of save requests are not
modelled; a request is recorded by its destination path, original
path, quality and format. -/

/-- The distinct status messages assigned by the controller. -/
inductive Status where
  | ready
  | loaded (path : String) (idx total : Nat)
  | loading (path : String) (idx total : Nat)
  | noSelection
  | imageNotLoaded
  | noImageSelected
  | selectionsTooSmall
  | savingInBackground (path : String)
  | failedQueueSave
  | converting (path : String)
  | allProcessed
  | selectionCleared
  | savingInProgress (remaining : Nat)
  | errSaving (path : String)
  | errorLoading
deriving DecidableEq, Repr

/-- ASCII lowercasing of one character (`to_ascii_lowercase`). -/
def asciiLower (c : Char) : Char :=
  if 'A' ≤ c ∧ c ≤ 'Z' then Char.ofNat (c.toNat + 32) else c

/-- ASCII lowercasing of a string. -/
def lowerS (s : String) : String := ⟨s.data.map asciiLower⟩

/-- `Path::extension()` of a plain file name: the portion after the
last dot, except that a name whose only dot is the leading one has no
extension. -/
def rustExtension (name : String) : Option String :=
  match splitNameL name.data with
  | (_, none) => none
  | (stem, some e) => if stem = [] then none else some ⟨e⟩

/-- `Path::with_extension`: replace the extension, or append one when
the name has none. -/
def withExtension (p : String) (newExt : String) : String :=
  match splitNameL p.data with
  | (stem, some _) =>
      if stem = [] then ⟨p.data ++ '.' :: newExt.data⟩
      else ⟨stem ++ '.' :: newExt.data⟩
  | (_, none) => ⟨p.data ++ '.' :: newExt.data⟩

/-- `OutputFormat::extension` (src/image_utils.rs lines 17-24). -/
def formatExt : OutputFormat → String
  | .jpg => "jpg"
  | .png => "png"
  | .webp => "webp"
  | .avif => "avif"

/-- The resave trigger of `advance` (mod.rs lines 164-167):
`path.extension().map_or(false, |e| e.to_ascii_lowercase() !=
self.format.extension())`. -/
def extDiffers (path : String) (fmt : OutputFormat) : Bool :=
  match rustExtension path with
  | none => false
  | some e => decide (lowerS e ≠ formatExt fmt)

/-- A queued save request, identified by its paths and parameters
(the pixel payload is outside the model). -/
structure SaveRequestM where
  path : String
  originalPath : String
  quality : Nat
  format : OutputFormat
deriving DecidableEq, Repr

/-- The controller state (`ImageCropperApp`, mod.rs lines 22-42). -/
structure AppState where
  files : List String
  currentIndex : Nat
  dryRun : Bool
  quality : Nat
  resave : Bool
  format : OutputFormat
  image : Option Nat
  texture : Option Nat
  canvasSelections : List (Option (Nat × Nat × Nat × Nat))
  loaderCache : List (String × Rec)
  loaderPending : List String
  history : List Rec
  loadingActive : Bool
  saver : SaverState
  queuedRequests : List SaveRequestM
  status : Status
  finished : Bool
  isExiting : Bool
  exitAttemptCount : Nat
  listCompleted : Bool
  windowedModeSet : Bool
  closed : Bool
deriving DecidableEq, Repr

/-- `HashMap::insert` on the cache: replace the entry for the key or
append a new one. -/
def cacheInsert : List (String × Rec) → Rec → List (String × Rec)
  | [], e => [(e.path, e)]
  | x :: t, e => if x.1 = e.path then (e.path, e) :: t else x :: cacheInsert t e

/-- `Loader::update` (loader.rs lines 258-263): drain the worker
channel, moving each completed record out of the pending set and into
the cache.  The records delivered by the channel this tick are the
`incoming` argument. -/
def loaderUpdate (s : AppState) (incoming : List Rec) : AppState :=
  { s with
    loaderCache := incoming.foldl cacheInsert s.loaderCache
    loaderPending := incoming.foldl (fun l e => removeFirst l e.path) s.loaderPending }

/-- `queue_save` seen from the controller: the request is recorded
and its destination path pushed onto `pending_saves`; the flag is the
success of the enqueue. -/
def appQueueSave (s : AppState) (req : SaveRequestM) : AppState × Bool :=
  let r := queueSave s.saver req.path
  ({ s with saver := r.1, queuedRequests := s.queuedRequests ++ [req] }, r.2)

/-- `request_shutdown` (mod.rs lines 133-138): set `finished`; close
the viewport only when no saves are pending. -/
def requestShutdown (s : AppState) : AppState :=
  let s2 := { s with finished := true }
  if s2.saver.pendingSaves.isEmpty then { s2 with closed := true } else s2

/-- `load_current_image` (mod.rs lines 87-131): adopt the record from
the loader cache when present (consuming it), otherwise display the
loading state.  The worker-channel drain at its head is modelled at
the tick entry (`loaderUpdate`); the returned flag is `false` exactly
in the `Err("No images remaining")` case. -/
def loadCurrentImage (s : AppState) : AppState × Bool :=
  match s.files.get? s.currentIndex with
  | none => (s, false)
  | some path =>
      match cacheLookup s.loaderCache path with
      | some r =>
          ({ s with
              loaderCache := cacheRemove s.loaderCache path
              canvasSelections := []
              texture := some r.img
              image := some r.img
              status := .loaded path (s.currentIndex + 1) s.files.length
              loadingActive := false }, true)
      | none =>
          ({ s with
              image := none
              texture := none
              status := .loading path (s.currentIndex + 1) s.files.length
              loadingActive := true }, true)

/-- The wrapped previous index used by `go_back` (mod.rs lines
229-233 and 263-267). -/
def prevIndex (s : AppState) : Nat :=
  if s.currentIndex = 0 then s.files.length - 1 else s.currentIndex - 1

/-- `advance` (mod.rs lines 155-219). -/
def advance (s : AppState) : AppState :=
  if s.files.isEmpty then requestShutdown s
  else
    let s1 :=
      if s.resave then
        match s.files.get? s.currentIndex with
        | some path =>
            if extDiffers path s.format then
              match s.image with
              | some _ =>
                  let outputPath := withExtension path (formatExt s.format)
                  let r := appQueueSave s ⟨outputPath, path, s.quality, s.format⟩
                  if r.2 then
                    { r.1 with
                        files := r.1.files.set r.1.currentIndex outputPath
                        status := .converting outputPath }
                  else r.1
              | none => s
            else s
        | none => s
      else s
    let s2 :=
      match s1.files.get? s1.currentIndex, s1.image, s1.texture with
      | some path, some img, some _ =>
          { s1 with history := pushHistory s1.history ⟨path, img⟩ }
      | _, _, _ => s1
    if s2.currentIndex + 1 ≥ s2.files.length then
      { s2 with listCompleted := true, status := .allProcessed }
    else
      let s3 := { s2 with currentIndex := s2.currentIndex + 1 }
      let r := loadCurrentImage s3
      if r.2 then r.1 else { r.1 with status := .errorLoading }

/-- The fallback of `go_back` (mod.rs lines 262-270): decrement the
cursor (with wraparound) and load the image at the new cursor. -/
def goBackFallback (s : AppState) : AppState :=
  let r := loadCurrentImage { s with currentIndex := prevIndex s }
  if r.2 then r.1 else { r.1 with status := .errorLoading }

/-- `go_back` (mod.rs lines 221-271): pop History; adopt the popped
record when its path matches the file list at the previous index,
otherwise discard it and fall back to a fresh load. -/
def goBack (s : AppState) : AppState :=
  if s.files.isEmpty then s
  else
    match popHistory s.history with
    | (some entry, rest) =>
        if s.files.get? (prevIndex s) = some entry.path then
          { s with
              history := rest
              currentIndex := prevIndex s
              canvasSelections := []
              texture := some entry.img
              image := some entry.img
              status := .loaded entry.path (prevIndex s + 1) s.files.length }
        else
          goBackFallback { s with history := rest }
    | (none, _) => goBackFallback s

/-- The crop list built by `crop_selections` (mod.rs lines 328-335):
one piece per selection whose `to_u32_bounds` yields positive width
and height. -/
def selectionCrops (sels : List (Option (Nat × Nat × Nat × Nat))) : List Img :=
  sels.filterMap fun b =>
    match b with
    | some (_, _, w, h) =>
        if 0 < w ∧ 0 < h then some (⟨w, h⟩ : Img) else none
    | none => none

/-- `crop_selections` (mod.rs lines 314-374).  Selections are
represented by their `to_u32_bounds` results. -/
def cropSelections (s : AppState) : AppState × Bool :=
  if s.canvasSelections.isEmpty then
    ({ s with status := .noSelection }, false)
  else
    match s.image with
    | none => ({ s with status := .imageNotLoaded }, false)
    | some _ =>
        match s.files.get? s.currentIndex with
        | none => ({ s with status := .noImageSelected }, false)
        | some path =>
            let crops := selectionCrops s.canvasSelections
            if crops.isEmpty then
              ({ s with status := .selectionsTooSmall }, false)
            else
              let _finalImage : Img :=
                match crops with
                | [c] => c
                | _ => combineCropsDims crops
              let outputPath := withExtension path (formatExt s.format)
              let r := appQueueSave s ⟨outputPath, path, s.quality, s.format⟩
              if r.2 then
                let s4 := { r.1 with
                  files := r.1.files.set r.1.currentIndex outputPath }
                ({ advance s4 with status := .savingInBackground outputPath }, true)
              else
                ({ r.1 with status := .failedQueueSave }, false)

/-- One tick of `update` (mod.rs lines 407-649) on which at most the
ESC key is pressed: drain the loader channel, drain save completions,
then run the exit machinery (forced-shutdown check at line 420, the
`is_exiting` waiting screen at lines 438-457, and the ESC handling at
lines 489-512).  `arrived` carries the drained save statuses as
`(path, success)`.  The navigation keys dispatch to `advance`,
`goBack` and `cropSelections`, which are modelled separately. -/
def updateTick (s0 : AppState) (incoming : List Rec)
    (arrived : List (String × Bool)) (escPressed : Bool) : AppState :=
  let s1 : AppState := loaderUpdate s0 incoming
  let s : AppState := { s1 with
    saver := checkCompletions s1.saver (arrived.map Prod.fst)
    status := arrived.foldl
      (fun st pr => if pr.2 then st else Status.errSaving pr.1) s1.status }
  if decide (0 < s.exitAttemptCount) && s.saver.pendingSaves.isEmpty then
    requestShutdown s
  else
    let s : AppState :=
      if s.image = none then
        match s.files.get? s.currentIndex with
        | some path =>
            if (cacheLookup s.loaderCache path).isSome then
              (loadCurrentImage s).1
            else s
        | none => s
      else s
    let s : AppState := if s.finished then { s with isExiting := true } else s
    if s.isExiting then
      if s.saver.pendingSaves.isEmpty then { s with closed := true }
      else { s with windowedModeSet := true }
    else if s.listCompleted then s
    else if escPressed then
      if ¬ s.canvasSelections.isEmpty then
        { s with
            canvasSelections := []
            status := .selectionCleared
            exitAttemptCount := 0 }
      else if s.saver.pendingSaves.isEmpty then requestShutdown s
      else
        let s : AppState := { s with exitAttemptCount := s.exitAttemptCount + 1 }
        if 3 - s.exitAttemptCount == 0 then requestShutdown s
        else { s with status := .savingInProgress (3 - s.exitAttemptCount) }
    else s

theorem loadCurrentImage_ok (s : AppState) (h : s.currentIndex < s.files.length) :
    (loadCurrentImage s).2 = true := by
  have hsome := List.get?_eq_get h
  unfold loadCurrentImage
  rcases hcl : cacheLookup s.loaderCache (s.files.get ⟨s.currentIndex, h⟩)
      with _ | r <;> simp only [hsome, hcl]

theorem prevIndex_lt (s : AppState) (hne : s.files ≠ [])
    (hidx : s.currentIndex < s.files.length) :
    prevIndex s < s.files.length := by
  have hpos : 0 < s.files.length := List.length_pos.mpr hne
  unfold prevIndex
  by_cases h0 : s.currentIndex = 0 <;> simp [h0] <;> omega

/-- C5: `go_back` pops History; when the popped record's path equals
the file-list entry at `cursor - 1` (wrapping to the last index at
cursor 0) it is adopted as current — cursor moved, no load issued —
and when it does not match, the record is discarded and `go_back`
decrements the cursor (same wraparound) and loads the image at the
new cursor afresh through `load_current_image`. -/
theorem c5_goBack_spec (s : AppState) (entry : Rec) (rest : List Rec)
    (hne : s.files ≠ []) (hidx : s.currentIndex < s.files.length)
    (hpop : popHistory s.history = (some entry, rest)) :
    (s.files.get? (prevIndex s) = some entry.path →
      goBack s = { s with
        history := rest
        currentIndex := prevIndex s
        canvasSelections := []
        texture := some entry.img
        image := some entry.img
        status := .loaded entry.path (prevIndex s + 1) s.files.length })
    ∧ (s.files.get? (prevIndex s) ≠ some entry.path →
      goBack s =
        (loadCurrentImage { s with history := rest, currentIndex := prevIndex s }).1) := by
  have hemp : s.files.isEmpty = false := List.isEmpty_eq_false.mpr hne
  constructor
  · intro hmatch
    rw [List.get?_eq_getElem?] at hmatch
    simp [goBack, hemp, hpop, hmatch]
  · intro hmis
    rw [List.get?_eq_getElem?] at hmis
    have hgb : goBack s = goBackFallback { s with history := rest } := by
      simp [goBack, hemp, hpop, hmis]
    rw [hgb]
    unfold goBackFallback
    have hprev : prevIndex { s with history := rest } = prevIndex s := rfl
    rw [hprev]
    have hok : (loadCurrentImage
        { s with history := rest, currentIndex := prevIndex s }).2 = true := by
      apply loadCurrentImage_ok
      simpa using prevIndex_lt s hne hidx
    simp only [hok, if_true]

/-- The concrete state for the adopt branch of the C5 witness. -/
def c5AdoptState : AppState :=
  { files := ["a.png", "b.png"], currentIndex := 1, dryRun := false,
    quality := 90, resave := false, format := .jpg, image := some 9,
    texture := some 9, canvasSelections := [], loaderCache := [],
    loaderPending := [], history := [⟨"a.png", 5⟩], loadingActive := false,
    saver := ⟨[], true⟩, queuedRequests := [], status := .ready,
    finished := false, isExiting := false, exitAttemptCount := 0,
    listCompleted := false, windowedModeSet := false, closed := false }

/-- The concrete state for the mismatch branch of the C5 witness. -/
def c5MismatchState : AppState :=
  { c5AdoptState with history := [⟨"z.png", 5⟩] }

/-- Witness for C5: both branches at concrete states. -/
theorem c5_goBack_spec_witness :
    goBack c5AdoptState = { c5AdoptState with
        history := []
        currentIndex := prevIndex c5AdoptState
        canvasSelections := []
        texture := some 5
        image := some 5
        status := .loaded "a.png" (prevIndex c5AdoptState + 1)
          c5AdoptState.files.length }
    ∧ goBack c5MismatchState =
        (loadCurrentImage { c5MismatchState with
            history := [], currentIndex := prevIndex c5MismatchState }).1 :=
  ⟨(c5_goBack_spec c5AdoptState ⟨"a.png", 5⟩ [] (by decide) (by decide)
      (by decide)).1 (by decide),
   (c5_goBack_spec c5MismatchState ⟨"z.png", 5⟩ [] (by decide) (by decide)
      (by decide)).2 (by decide)⟩

/-- A selection whose clipped integer bounds have zero width or zero
height (or that produced no bounds at all). -/
def degenerateSel (b : Option (Nat × Nat × Nat × Nat)) : Prop :=
  match b with
  | none => True
  | some (_, _, w, h) => w = 0 ∨ h = 0

instance (b : Option (Nat × Nat × Nat × Nat)) : Decidable (degenerateSel b) := by
  cases b with
  | none => exact isTrue trivial
  | some q =>
      obtain ⟨x, y, w, h⟩ := q
      exact decidable_of_iff (w = 0 ∨ h = 0) (by simp [degenerateSel])

/-- C10: when there are no selections, or no loaded image, or every
selection is degenerate (zero width or height), `crop_selections`
returns `false` and modifies nothing but the status message: no
request is queued, and the file list, cursor and PendingSaves are
untouched. -/
theorem c10_cropSelections_noop (s : AppState)
    (h : s.canvasSelections = [] ∨ s.image = none
        ∨ ∀ b ∈ s.canvasSelections, degenerateSel b) :
    (cropSelections s).2 = false
    ∧ ∃ st, (cropSelections s).1 = { s with status := st } := by
  by_cases hsel : s.canvasSelections.isEmpty
  · have hres : cropSelections s = ({ s with status := .noSelection }, false) := by
      simp [cropSelections, hsel]
    rw [hres]
    exact ⟨rfl, ⟨.noSelection, rfl⟩⟩
  · have hnempty : s.canvasSelections ≠ [] := by
      simpa [List.isEmpty_iff] using hsel
    rcases h with h | h | h
    · exact absurd h hnempty
    · have hres : cropSelections s = ({ s with status := .imageNotLoaded }, false) := by
        simp [cropSelections, hsel, h]
      rw [hres]
      exact ⟨rfl, ⟨.imageNotLoaded, rfl⟩⟩
    · by_cases himg0 : s.image = none
      · have hres : cropSelections s
            = ({ s with status := .imageNotLoaded }, false) := by
          simp [cropSelections, hsel, himg0]
        rw [hres]
        exact ⟨rfl, ⟨.imageNotLoaded, rfl⟩⟩
      · obtain ⟨img, himg⟩ := Option.ne_none_iff_exists'.mp himg0
        cases hget : s.files.get? s.currentIndex with
        | none =>
            rw [List.get?_eq_getElem?] at hget
            have hres : cropSelections s
                = ({ s with status := .noImageSelected }, false) := by
              simp [cropSelections, hsel, himg, hget]
            rw [hres]
            exact ⟨rfl, ⟨.noImageSelected, rfl⟩⟩
        | some path =>
            rw [List.get?_eq_getElem?] at hget
            have hcrops : selectionCrops s.canvasSelections = [] := by
              rw [selectionCrops, List.filterMap_eq_nil_iff]
              intro b hb
              have hdeg := h b hb
              match b with
              | none => rfl
              | some (x, y, w, h') =>
                  simp only [degenerateSel] at hdeg
                  have : ¬ (0 < w ∧ 0 < h') := by omega
                  simp [this]
            have hres : cropSelections s
                = ({ s with status := .selectionsTooSmall }, false) := by
              simp [cropSelections, hsel, himg, hget, hcrops]
            rw [hres]
            exact ⟨rfl, ⟨.selectionsTooSmall, rfl⟩⟩

/-- The concrete state for the C10 witness: one degenerate and one
absent selection bound. -/
def c10State : AppState :=
  { c5AdoptState with
      currentIndex := 0
      canvasSelections := [some (3, 4, 0, 5), none]
      saver := ⟨["pending.jpg"], true⟩ }

/-- Witness for C10: the no-op at a concrete state with degenerate
selections. -/
theorem c10_cropSelections_noop_witness :
    (cropSelections c10State).2 = false
    ∧ ∃ st, (cropSelections c10State).1 = { c10State with status := st } :=
  c10_cropSelections_noop c10State (Or.inr (Or.inr (by decide)))

/-- The controller state at the start of the C3 scenario: one image
shown, one save outstanding, no selections. -/
def c3Start : AppState :=
  { files := ["a.png"], currentIndex := 0, dryRun := false, quality := 90,
    resave := false, format := .jpg, image := some 1, texture := some 1,
    canvasSelections := [], loaderCache := [], loaderPending := [],
    history := [], loadingActive := false,
    saver := ⟨["out.jpg"], true⟩, queuedRequests := [],
    status := .ready, finished := false, isExiting := false,
    exitAttemptCount := 0, listCompleted := false,
    windowedModeSet := false, closed := false }

/-- A tick on which ESC is pressed and nothing arrives. -/
def escTick (s : AppState) : AppState := updateTick s [] [] true

/-- A tick with no input and nothing arriving. -/
def idleTick (s : AppState) : AppState := updateTick s [] [] false

/-- C3, evaluated at the failing input: with one save outstanding,
three ESC presses count the threshold down (status shows the
remaining presses) and the third press — the "force exit" — only sets
`finished`; no Close is sent.  The following ticks enter the
`is_exiting` waiting screen and still do not close while the save is
pending; Close is sent only once the save status is drained.  The
code therefore never terminates "immediately regardless of
outstanding saves"; it always waits for PendingSaves to drain. -/
theorem c3_force_exit_still_waits :
    (escTick c3Start).exitAttemptCount = 1
    ∧ (escTick c3Start).status = .savingInProgress 2
    ∧ (escTick c3Start).closed = false
    ∧ (escTick (escTick c3Start)).exitAttemptCount = 2
    ∧ (escTick (escTick c3Start)).status = .savingInProgress 1
    ∧ (escTick (escTick c3Start)).closed = false
    ∧ (escTick (escTick (escTick c3Start))).exitAttemptCount = 3
    ∧ (escTick (escTick (escTick c3Start))).finished = true
    ∧ (escTick (escTick (escTick c3Start))).closed = false
    ∧ (idleTick (escTick (escTick (escTick c3Start)))).isExiting = true
    ∧ (idleTick (escTick (escTick (escTick c3Start)))).closed = false
    ∧ (idleTick (idleTick (escTick (escTick (escTick c3Start))))).closed = false
    ∧ (updateTick (escTick (escTick (escTick c3Start))) [] [("out.jpg", true)]
        false).closed = true := by
  decide

end ImageCropper
